import Mathlib

/-!
Shallow embedding of the pure-Python Snappy decompressor
(`python_snappy/snappy.py`).  Byte strings are modelled as `List Nat`
(each element a byte value), cursors as `Nat`, and the raising of
`CompressionError` as an `Except` error whose constructor records which
raise site (message) fired.  The decode loops of the source are `while`
loops whose cursor strictly advances; they are embedded with an explicit
step-count argument that the top-level entry points instantiate with
`data.length + 1`, which strictly exceeds the number of iterations any
run can perform.
-/

/-- One constructor per distinct `raise CompressionError(...)` site in
`snappy.py`, named after the message raised there, plus `outOfFuel` for
the step-count guard of the embedding (never reached from the entry
points, which pass more steps than the loops can take). -/
inductive Err where
  | truncatedVarint
  | varintTooLarge
  | truncatedLiteralLength
  | truncatedLiteralData
  | outputOverflowLiteral
  | truncatedCopy1Offset
  | truncatedCopy2Offset
  | truncatedCopy4Offset
  | invalidZeroOffset
  | offsetExceedsOutput
  | outputOverflowCopy1
  | outputOverflowCopy2
  | outputOverflowCopy4
  | sizeMismatch
  | outOfFuel
  deriving DecidableEq, Repr

/-- The `while True` body of `_decode_varint`: accumulate 7 bits per
byte into `result` at bit position `shift`; a clear high bit ends the
loop, and after each continuation byte the shift is bumped by 7 and
checked against 32. -/
def decodeVarintLoop (data : List Nat) : Nat → Nat → Nat → Nat → Except Err (Nat × Nat)
  | 0, _, _, _ => .error .outOfFuel
  | fuel + 1, pos, result, shift =>
    if data.length ≤ pos then .error .truncatedVarint
    else
      let byte := data.getD pos 0
      let result1 := result ||| ((byte &&& 0x7F) <<< shift)
      if byte &&& 0x80 = 0 then .ok (result1, pos + 1)
      else
        let shift1 := shift + 7
        if 32 < shift1 then .error .varintTooLarge
        else decodeVarintLoop data fuel (pos + 1) result1 shift1

/-- `_decode_varint(data, pos)`: decode one varint starting at `pos`,
returning the value and the new position. -/
def _decode_varint (data : List Nat) (pos : Nat) : Except Err (Nat × Nat) :=
  decodeVarintLoop data (data.length + 1) pos 0 0

/-- The `for i in range(n): length += data[pos + i] << (i * 8)` loop of
the extended-literal-length parse: little-endian accumulation of `n`
bytes starting at `pos`. -/
def leBytes (data : List Nat) (pos : Nat) : Nat → Nat
  | 0 => 0
  | n + 1 => leBytes data pos n + (data.getD (pos + n) 0 <<< (n * 8))

/-- The literal-length computation of the `element_type == 0` branch:
`(tag >> 2) + 1` directly when at most 60, otherwise that many minus 60
extra little-endian bytes are read and the length is 1 plus their
value.  Returns the length and the new input position. -/
def parseLiteralLen (data : List Nat) (pos tag : Nat) : Except Err (Nat × Nat) :=
  let length := (tag >>> 2) + 1
  if length ≤ 60 then .ok (length, pos)
  else
    let extra := length - 60
    if data.length < pos + extra then .error .truncatedLiteralLength
    else .ok (1 + leBytes data pos extra, pos + extra)

/-- The literal slice assignment
`output[out_pos : out_pos + length] = data[pos : pos + length]`. -/
def writeLiteral (output : List Nat) (outPos : Nat) (data : List Nat) (pos length : Nat) : List Nat :=
  output.take outPos ++ (data.drop pos).take length ++ output.drop (outPos + length)

/-- One iteration of the copy loop:
`output[out_pos + i] = output[out_pos - offset + i]`. -/
def copyStep (output : List Nat) (outPos offset i : Nat) : List Nat :=
  output.set (outPos + i) (output.getD (outPos - offset + i) 0)

/-- The `for i in range(length)` copy loop, performed byte by byte in
increasing index order on the current output buffer. -/
def copyRange (output : List Nat) (outPos offset : Nat) : Nat → List Nat
  | 0 => output
  | n + 1 => copyStep (copyRange output outPos offset n) outPos offset n

/-- The validation and copy sequence shared verbatim by the three copy
branches of `decompress`: reject offset zero, then an offset past the
current output position, then output overflow (with the branch-specific
message `ovErr`), and otherwise perform the overlapping copy and
advance the output cursor. -/
def performCopy (output : List Nat) (outPos offset length ulen : Nat) (ovErr : Err) : Except Err (List Nat × Nat) :=
  if offset = 0 then .error .invalidZeroOffset
  else if outPos < offset then .error .offsetExceedsOutput
  else if ulen < outPos + length then .error ovErr
  else .ok (copyRange output outPos offset length, outPos + length)

/-- The `while pos < len(data) and out_pos < uncompressed_len` element
loop of `decompress`, followed by the final size check once the loop
condition fails. -/
def decompressLoop (data : List Nat) (ulen : Nat) : Nat → Nat → List Nat → Nat → Except Err (List Nat)
  | 0, _, _, _ => .error .outOfFuel
  | fuel + 1, pos, output, outPos =>
    if pos < data.length ∧ outPos < ulen then
      let tag := data.getD pos 0
      let pos1 := pos + 1
      let elementType := tag &&& 0x03
      if elementType = 0 then
        match parseLiteralLen data pos1 tag with
        | .error e => .error e
        | .ok (length, pos2) =>
          if data.length < pos2 + length then .error .truncatedLiteralData
          else if ulen < outPos + length then .error .outputOverflowLiteral
          else decompressLoop data ulen fuel (pos2 + length)
            (writeLiteral output outPos data pos2 length) (outPos + length)
      else if elementType = 1 then
        let length := ((tag >>> 2) &&& 0x07) + 4
        if data.length ≤ pos1 then .error .truncatedCopy1Offset
        else
          let offset := ((tag >>> 5) <<< 8) ||| data.getD pos1 0
          match performCopy output outPos offset length ulen .outputOverflowCopy1 with
          | .error e => .error e
          | .ok (output2, outPos2) => decompressLoop data ulen fuel (pos1 + 1) output2 outPos2
      else if elementType = 2 then
        let length := (tag >>> 2) + 1
        if data.length < pos1 + 2 then .error .truncatedCopy2Offset
        else
          let offset := data.getD pos1 0 ||| (data.getD (pos1 + 1) 0 <<< 8)
          match performCopy output outPos offset length ulen .outputOverflowCopy2 with
          | .error e => .error e
          | .ok (output2, outPos2) => decompressLoop data ulen fuel (pos1 + 2) output2 outPos2
      else
        let length := (tag >>> 2) + 1
        if data.length < pos1 + 4 then .error .truncatedCopy4Offset
        else
          let offset := data.getD pos1 0 ||| (data.getD (pos1 + 1) 0 <<< 8) |||
            (data.getD (pos1 + 2) 0 <<< 16) ||| (data.getD (pos1 + 3) 0 <<< 24)
          match performCopy output outPos offset length ulen .outputOverflowCopy4 with
          | .error e => .error e
          | .ok (output2, outPos2) => decompressLoop data ulen fuel (pos1 + 4) output2 outPos2
    else if outPos ≠ ulen then .error .sizeMismatch
    else .ok output

/-- `decompress(data)`: empty input short-circuits to empty output;
otherwise the uncompressed length is read as a varint, the output
buffer is pre-allocated to that size, and the element loop runs. -/
def decompress (data : List Nat) : Except Err (List Nat) :=
  if data.length = 0 then .ok []
  else
    match _decode_varint data 0 with
    | .error e => .error e
    | .ok (uncompressed_len, pos) =>
      decompressLoop data uncompressed_len (data.length + 1) pos
        (List.replicate uncompressed_len 0) 0

example : decompress [] = .ok [] := rfl
example : decompress [1, 0, 65] = .ok [65] := rfl
example : decompress [128] = .error .truncatedVarint := rfl
example : decompress [5, 0, 65, 1, 1] = .ok [65, 65, 65, 65, 65] := rfl
example : decompress [13, 48, 72, 101, 108, 108, 111, 44, 32, 87, 111, 114, 108, 100, 33] =
    .ok [72, 101, 108, 108, 111, 44, 32, 87, 111, 114, 108, 100, 33] := rfl

/-- Little-endian base-128 value of the `k + 1` bytes starting at
`pos`, in Horner form: each byte contributes its low 7 bits, least
significant byte first. -/
def varintValFrom (data : List Nat) (pos : Nat) : Nat → Nat
  | 0 => data.getD pos 0 % 128
  | k + 1 => data.getD pos 0 % 128 + 128 * varintValFrom data (pos + 1) k

lemma or_shiftLeft_eq_add {a b n : Nat} (h : a < 2 ^ n) :
    a ||| (b <<< n) = a + b * 2 ^ n := by
  rw [Nat.shiftLeft_eq, Nat.or_comm, Nat.mul_comm b (2 ^ n), ← Nat.mul_add_lt_is_or h]
  ring

lemma and_127_eq_mod (b : Nat) : b &&& 127 = b % 128 := by
  have h := Nat.and_pow_two_sub_one_eq_mod b 7
  norm_num at h
  exact h

lemma varintValFrom_eq_sum (data : List Nat) : ∀ k pos,
    varintValFrom data pos k =
      Finset.sum (Finset.range (k + 1)) (fun j => (data.getD (pos + j) 0 % 128) * 2 ^ (7 * j)) := by
  intro k
  induction k with
  | zero => intro pos; simp [varintValFrom]
  | succ k ih =>
    intro pos
    rw [Finset.sum_range_succ']
    have hsum : Finset.sum (Finset.range (k + 1))
        (fun j => (data.getD (pos + (j + 1)) 0 % 128) * 2 ^ (7 * (j + 1))) =
        128 * Finset.sum (Finset.range (k + 1))
          (fun j => (data.getD (pos + 1 + j) 0 % 128) * 2 ^ (7 * j)) := by
      rw [Finset.mul_sum]
      apply Finset.sum_congr rfl
      intro j _
      have h1 : pos + (j + 1) = pos + 1 + j := by omega
      have h2 : 7 * (j + 1) = 7 * j + 7 := by omega
      rw [h1, h2, pow_add]
      ring
    rw [hsum, ← ih (pos + 1)]
    simp only [varintValFrom, Nat.mul_zero, pow_zero, Nat.mul_one, Nat.add_zero]
    omega

lemma decodeVarintLoop_ok (data : List Nat) : ∀ k fuel pos result shift,
    data.length - pos < fuel →
    (∀ j, j < k → data.getD (pos + j) 0 &&& 0x80 ≠ 0) →
    data.getD (pos + k) 0 &&& 0x80 = 0 →
    pos + k < data.length →
    shift + 7 * k ≤ 32 →
    result < 2 ^ shift →
    decodeVarintLoop data fuel pos result shift =
      .ok (result + 2 ^ shift * varintValFrom data pos k, pos + k + 1) := by
  intro k
  induction k with
  | zero =>
    intro fuel pos result shift hfuel _ hterm hlen _ hres
    obtain ⟨f, rfl⟩ : ∃ f, fuel = f + 1 := ⟨fuel - 1, by omega⟩
    simp only [decodeVarintLoop]
    rw [if_neg (show ¬ data.length ≤ pos by omega)]
    simp only [Nat.add_zero] at hterm
    rw [if_pos hterm, or_shiftLeft_eq_add hres, and_127_eq_mod]
    simp only [varintValFrom, Except.ok.injEq, Prod.mk.injEq]
    refine ⟨by ring, by trivial⟩
  | succ k ih =>
    intro fuel pos result shift hfuel hcont hterm hlen hshift hres
    obtain ⟨f, rfl⟩ : ∃ f, fuel = f + 1 := ⟨fuel - 1, by omega⟩
    simp only [decodeVarintLoop]
    rw [if_neg (show ¬ data.length ≤ pos by omega)]
    have hb0 : ¬ data.getD pos 0 &&& 0x80 = 0 := by
      have := hcont 0 (by omega)
      simpa using this
    rw [if_neg hb0, if_neg (show ¬ 32 < shift + 7 by omega)]
    have hmod : data.getD pos 0 % 128 < 128 := Nat.mod_lt _ (by norm_num)
    have hres1 : result ||| ((data.getD pos 0 &&& 0x7F) <<< shift) < 2 ^ (shift + 7) := by
      rw [or_shiftLeft_eq_add hres]
      have h1 : result + (data.getD pos 0 &&& 0x7F) * 2 ^ shift <
          2 ^ shift + (data.getD pos 0 &&& 0x7F) * 2 ^ shift := by
        exact Nat.add_lt_add_right hres _
      have h2 : 2 ^ shift + (data.getD pos 0 &&& 0x7F) * 2 ^ shift =
          (1 + (data.getD pos 0 &&& 0x7F)) * 2 ^ shift := by ring
      have h3 : (1 + (data.getD pos 0 &&& 0x7F)) * 2 ^ shift ≤ 128 * 2 ^ shift := by
        apply Nat.mul_le_mul_right
        rw [and_127_eq_mod]
        omega
      have h4 : 128 * 2 ^ shift = 2 ^ (shift + 7) := by
        rw [pow_add]
        ring
      omega
    rw [ih f (pos + 1) _ (shift + 7) (by omega)
      (fun j hj => by
        have := hcont (j + 1) (by omega)
        rw [show pos + (j + 1) = pos + 1 + j by omega] at this
        exact this)
      (by rw [show pos + 1 + k = pos + (k + 1) by omega]; exact hterm)
      (by omega) (by omega) hres1]
    simp only [varintValFrom, Except.ok.injEq, Prod.mk.injEq]
    refine ⟨by rw [or_shiftLeft_eq_add hres, and_127_eq_mod, pow_add]; ring, by first | trivial | omega⟩

lemma decodeVarintLoop_truncated (data : List Nat) : ∀ n fuel pos result shift,
    data.length - pos < fuel →
    data.length ≤ pos + n →
    (∀ j, pos + j < data.length → data.getD (pos + j) 0 &&& 0x80 ≠ 0) →
    shift + 7 * n ≤ 32 →
    decodeVarintLoop data fuel pos result shift = .error .truncatedVarint := by
  intro n
  induction n with
  | zero =>
    intro fuel pos result shift hfuel hlen _ _
    obtain ⟨f, rfl⟩ : ∃ f, fuel = f + 1 := ⟨fuel - 1, by omega⟩
    simp only [decodeVarintLoop]
    rw [if_pos (by omega)]
  | succ n ih =>
    intro fuel pos result shift hfuel hlen hcont hshift
    obtain ⟨f, rfl⟩ : ∃ f, fuel = f + 1 := ⟨fuel - 1, by omega⟩
    simp only [decodeVarintLoop]
    by_cases hp : data.length ≤ pos
    · rw [if_pos hp]
    · rw [if_neg hp]
      have hb0 : ¬ data.getD pos 0 &&& 0x80 = 0 := by
        have := hcont 0 (by omega)
        simpa using this
      rw [if_neg hb0, if_neg (show ¬ 32 < shift + 7 by omega)]
      exact ih f (pos + 1) _ (shift + 7) (by omega) (by omega)
        (fun j hj => by
          have := hcont (j + 1) (by omega)
          rw [show pos + (j + 1) = pos + 1 + j by omega] at this
          exact this)
        (by omega)

lemma decodeVarintLoop_overflow (data : List Nat) : ∀ b fuel pos result,
    1 ≤ b → b ≤ 5 →
    data.length - pos < fuel →
    pos + b ≤ data.length →
    (∀ j, j < b → data.getD (pos + j) 0 &&& 0x80 ≠ 0) →
    decodeVarintLoop data fuel pos result (35 - 7 * b) = .error .varintTooLarge := by
  intro b
  induction b with
  | zero => intro fuel pos result h1; omega
  | succ b ih =>
    intro fuel pos result _ hb5 hfuel hlen hcont
    obtain ⟨f, rfl⟩ : ∃ f, fuel = f + 1 := ⟨fuel - 1, by omega⟩
    simp only [decodeVarintLoop]
    rw [if_neg (show ¬ data.length ≤ pos by omega)]
    have hb0 : ¬ data.getD pos 0 &&& 0x80 = 0 := by
      have := hcont 0 (by omega)
      simpa using this
    rw [if_neg hb0]
    by_cases hb : b = 0
    · subst hb
      rw [if_pos (by omega)]
    · rw [if_neg (show ¬ 32 < 35 - 7 * (b + 1) + 7 by omega)]
      rw [show 35 - 7 * (b + 1) + 7 = 35 - 7 * b by omega]
      exact ih f (pos + 1) _ (by omega) (by omega) (by omega) (by omega)
        (fun j hj => by
          have := hcont (j + 1) (by omega)
          rw [show pos + (j + 1) = pos + 1 + j by omega] at this
          exact this)

/-- Success of `_decode_varint` when a terminator byte follows `k ≤ 4`
continuation bytes. -/
lemma decode_varint_ok (data : List Nat) (pos k : Nat)
    (hcont : ∀ j, j < k → data.getD (pos + j) 0 &&& 0x80 ≠ 0)
    (hterm : data.getD (pos + k) 0 &&& 0x80 = 0)
    (hk : k ≤ 4) (hlen : pos + k < data.length) :
    _decode_varint data pos = .ok (varintValFrom data pos k, pos + k + 1) := by
  unfold _decode_varint
  rw [decodeVarintLoop_ok data k (data.length + 1) pos 0 0 (by omega) hcont hterm hlen
    (by omega) (by norm_num)]
  simp

/-- C3: when the input from `pos` starts with `k` bytes with the high
bit set followed by one byte with the high bit clear, and the shift
stays within bounds (`k ≤ 4`), the varint reader returns the value
formed by each byte contributing its low 7 bits in order of increasing
significance (least-significant byte first), together with the cursor
advanced by the `k + 1` consumed bytes. -/
theorem varint_reader_value_and_cursor (data : List Nat) (pos k : Nat)
    (hcont : ∀ j, j < k → data.getD (pos + j) 0 &&& 0x80 ≠ 0)
    (hterm : data.getD (pos + k) 0 &&& 0x80 = 0)
    (hk : k ≤ 4) (hlen : pos + k < data.length) :
    _decode_varint data pos =
      .ok (Finset.sum (Finset.range (k + 1))
        (fun j => (data.getD (pos + j) 0 % 128) * 2 ^ (7 * j)), pos + (k + 1)) := by
  rw [decode_varint_ok data pos k hcont hterm hk hlen, varintValFrom_eq_sum,
    Nat.add_assoc]

/-- C3 witness: decoding `[0x85, 0x03]` yields `5 + 3 * 128 = 389` and
cursor 2. -/
theorem varint_reader_value_and_cursor_witness :
    _decode_varint [133, 3] 0 = .ok (389, 2) := by
  have h := varint_reader_value_and_cursor [133, 3] 0 1 (by decide) (by decide)
    (by decide) (by decide)
  exact h.trans (by norm_num [Finset.sum_range_succ])

/-- Overflow of `_decode_varint` as soon as 5 continuation bytes have
been consumed. -/
lemma decode_varint_overflow (data : List Nat) (pos : Nat)
    (hlen : pos + 5 ≤ data.length)
    (hcont : ∀ j, j < 5 → data.getD (pos + j) 0 &&& 0x80 ≠ 0) :
    _decode_varint data pos = .error .varintTooLarge := by
  unfold _decode_varint
  have h := decodeVarintLoop_overflow data 5 (data.length + 1) pos 0 (by omega) (by omega)
    (by omega) hlen hcont
  simpa using h

/-- C4 counterexample: the input `80 80 80 80 80 00` is a varint that
terminates after exactly 5 continuation bytes (the sixth byte has its
high bit clear), yet the reader fails with the Overflow error rather
than decoding it. -/
theorem varint_overflow_counterexample :
    _decode_varint [128, 128, 128, 128, 128, 0] 0 = .error .varintTooLarge ∧
      List.getD [128, 128, 128, 128, 128, 0] 5 0 &&& 0x80 = 0 :=
  ⟨rfl, rfl⟩

/-- C4 (amended): the varint reader fails with the Overflow error if
and only if the first 5 bytes from the cursor exist and all have the
high bit set, i.e. 5 (not \"more than 5\") continuation bytes are
consumed and the accumulated bit-shift exceeds 32; varints terminating
with at most 4 continuation bytes never raise Overflow. -/
theorem varint_overflow_iff (data : List Nat) (pos : Nat) :
    _decode_varint data pos = .error .varintTooLarge ↔
      (pos + 5 ≤ data.length ∧ ∀ j, j < 5 → data.getD (pos + j) 0 &&& 0x80 ≠ 0) := by
  constructor
  · intro h
    by_contra hno
    have hex : ∃ j, data.length ≤ pos + j ∨ data.getD (pos + j) 0 &&& 0x80 = 0 :=
      ⟨data.length - pos, Or.inl (by omega)⟩
    have hPk := Nat.find_spec hex
    have hbelow : ∀ j, j < Nat.find hex →
        pos + j < data.length ∧ data.getD (pos + j) 0 &&& 0x80 ≠ 0 := by
      intro j hj
      have hnp := Nat.find_min hex hj
      push_neg at hnp
      exact ⟨by omega, hnp.2⟩
    have hk4 : Nat.find hex ≤ 4 := by
      by_contra hk5
      push_neg at hk5
      exact hno ⟨by have := (hbelow 4 (by omega)).1; omega,
        fun j hj => (hbelow j (by omega)).2⟩
    by_cases hend : data.length ≤ pos + Nat.find hex
    · have htr : _decode_varint data pos = .error .truncatedVarint := by
        unfold _decode_varint
        exact decodeVarintLoop_truncated data (Nat.find hex) (data.length + 1) pos 0 0
          (by omega) hend
          (fun j hj => (hbelow j (by omega)).2)
          (by omega)
      rw [h] at htr
      simp at htr
    · push_neg at hend
      rcases hPk with h1 | hterm
      · omega
      · have hok := decode_varint_ok data pos (Nat.find hex)
          (fun j hj => (hbelow j hj).2) hterm hk4 hend
        rw [h] at hok
        simp at hok
  · intro h
    exact decode_varint_overflow data pos h.1 h.2

/-- C5: whenever every byte from the cursor to the end of input has the
high bit set and at most 4 such bytes remain (so the shift check never
fires first), the varint reader fails with the Truncated error; in
particular `decompress` on the one-byte input `80` fails with it. -/
theorem varint_truncated_when_input_ends (data : List Nat) (pos : Nat)
    (hcont : ∀ j, pos + j < data.length → data.getD (pos + j) 0 &&& 0x80 ≠ 0)
    (hlen : data.length ≤ pos + 4) :
    _decode_varint data pos = .error .truncatedVarint ∧
      decompress [128] = .error .truncatedVarint := by
  refine ⟨?_, rfl⟩
  unfold _decode_varint
  exact decodeVarintLoop_truncated data 4 (data.length + 1) pos 0 0 (by omega) hlen hcont
    (by omega)

/-- C5 witness: the truncated varint `80` at cursor 0. -/
theorem varint_truncated_when_input_ends_witness :
    _decode_varint [128] 0 = .error .truncatedVarint ∧
      decompress [128] = .error .truncatedVarint :=
  varint_truncated_when_input_ends [128] 0
    (by
      intro j hj
      have hj0 : j = 0 := by simpa using hj
      subst hj0
      decide)
    (by decide)

lemma copyRange_length (output : List Nat) (outPos offset : Nat) : ∀ n,
    (copyRange output outPos offset n).length = output.length := by
  intro n
  induction n with
  | zero => rfl
  | succ n ih => simp [copyRange, copyStep, List.length_set, ih]

lemma copyRange_getD_below (output : List Nat) (outPos offset : Nat) : ∀ n j, j < outPos →
    (copyRange output outPos offset n).getD j 0 = output.getD j 0 := by
  intro n
  induction n with
  | zero => intro j _; rfl
  | succ n ih =>
    intro j hj
    simp only [copyRange, copyStep]
    rw [List.getD_eq_getElem?_getD, List.getElem?_set_ne (by omega),
      ← List.getD_eq_getElem?_getD]
    exact ih j hj

lemma copyRange_getD_stable (output : List Nat) (outPos offset m i : Nat) (him : i < m) :
    ∀ k, (copyRange output outPos offset (m + k)).getD (outPos + i) 0 =
      (copyRange output outPos offset m).getD (outPos + i) 0 := by
  intro k
  induction k with
  | zero => rfl
  | succ k ih =>
    show (copyRange output outPos offset ((m + k) + 1)).getD (outPos + i) 0 = _
    simp only [copyRange, copyStep]
    rw [List.getD_eq_getElem?_getD, List.getElem?_set_ne (by omega),
      ← List.getD_eq_getElem?_getD]
    exact ih

lemma copyRange_getD_write (output : List Nat) (outPos offset n i : Nat)
    (hi : i < n) (hb : outPos + n ≤ output.length) :
    (copyRange output outPos offset n).getD (outPos + i) 0 =
      (copyRange output outPos offset i).getD (outPos - offset + i) 0 := by
  obtain ⟨k, rfl⟩ : ∃ k, n = (i + 1) + k := ⟨n - i - 1, by omega⟩
  rw [copyRange_getD_stable output outPos offset (i + 1) i (by omega) k]
  simp only [copyRange, copyStep]
  rw [List.getD_eq_getElem?_getD,
    List.getElem?_set_self (by rw [copyRange_length]; omega), Option.getD_some]

lemma copyRange_getD_eq (output : List Nat) (outPos offset n : Nat)
    (h1 : 1 ≤ offset) (h2 : offset ≤ outPos) (hb : outPos + n ≤ output.length) :
    ∀ i, i < n →
      (copyRange output outPos offset n).getD (outPos + i) 0 =
        (copyRange output outPos offset n).getD (outPos - offset + i) 0 := by
  intro i hi
  rw [copyRange_getD_write output outPos offset n i hi hb]
  rcases Nat.lt_or_ge i offset with hlt | hge
  · have hpos : outPos - offset + i < outPos := by omega
    rw [copyRange_getD_below output outPos offset i _ hpos,
      copyRange_getD_below output outPos offset n _ hpos]
  · have hd : outPos - offset + i = outPos + (i - offset) := by omega
    rw [hd]
    set d := i - offset with hdd
    have e1 : (copyRange output outPos offset i).getD (outPos + d) 0 =
        (copyRange output outPos offset (d + 1)).getD (outPos + d) 0 := by
      conv_lhs => rw [show i = (d + 1) + (offset - 1) by omega]
      exact copyRange_getD_stable output outPos offset (d + 1) d (by omega) (offset - 1)
    have e2 : (copyRange output outPos offset n).getD (outPos + d) 0 =
        (copyRange output outPos offset (d + 1)).getD (outPos + d) 0 := by
      conv_lhs => rw [show n = (d + 1) + (n - d - 1) by omega]
      exact copyRange_getD_stable output outPos offset (d + 1) d (by omega) (n - d - 1)
    rw [e1, e2]

lemma copyRange_getD_offset_one (output : List Nat) (outPos n : Nat)
    (h2 : 1 ≤ outPos) (hb : outPos + n ≤ output.length) :
    ∀ i, i < n →
      (copyRange output outPos 1 n).getD (outPos + i) 0 = output.getD (outPos - 1) 0 := by
  intro i
  induction i with
  | zero =>
    intro hi
    rw [copyRange_getD_eq output outPos 1 n (le_refl 1) h2 hb 0 hi,
      show outPos - 1 + 0 = outPos - 1 by omega,
      copyRange_getD_below output outPos 1 n _ (by omega)]
  | succ i ih =>
    intro hi
    rw [copyRange_getD_eq output outPos 1 n (le_refl 1) h2 hb (i + 1) hi,
      show outPos - 1 + (i + 1) = outPos + i by omega]
    exact ih (by omega)

/-- C2: for a copy that passed the offset and overflow checks
(`1 ≤ offset ≤ outPos`, room for `n` bytes), the byte-by-byte
increasing-order copy loop satisfies
`output[outPos + i] = output[outPos - offset + i]` for every `i < n` on
its result, so overlapping copies replicate earlier output; with
`offset = 1` every copied byte equals the byte immediately preceding
`outPos`, and `decompress` of a literal `A` followed by an
offset-1/length-4 copy yields five copies of `A`. -/
theorem copy_byte_by_byte_increasing (output : List Nat) (outPos offset n : Nat)
    (h1 : 1 ≤ offset) (h2 : offset ≤ outPos) (hb : outPos + n ≤ output.length) :
    (∀ i, i < n →
      (copyRange output outPos offset n).getD (outPos + i) 0 =
        (copyRange output outPos offset n).getD (outPos - offset + i) 0) ∧
    (offset = 1 → ∀ i, i < n →
      (copyRange output outPos offset n).getD (outPos + i) 0 =
        output.getD (outPos - 1) 0) ∧
    decompress [5, 0, 65, 1, 1] = .ok [65, 65, 65, 65, 65] := by
  refine ⟨copyRange_getD_eq output outPos offset n h1 h2 hb, ?_, rfl⟩
  intro ho
  subst ho
  exact copyRange_getD_offset_one output outPos n h2 hb

/-- C2 witness: an offset-1 copy of length 3 after two committed bytes
replicates the byte before the output cursor. -/
theorem copy_byte_by_byte_increasing_witness :
    (copyRange [7, 9, 0, 0, 0] 2 1 3).getD 4 0 = [7, 9, 0, 0, 0].getD 1 0 := by
  have h := (copy_byte_by_byte_increasing [7, 9, 0, 0, 0] 2 1 3 (by decide) (by decide)
    (by decide)).2.1 rfl 2 (by decide)
  simpa using h

lemma writeLiteral_length (output : List Nat) (outPos : Nat) (data : List Nat)
    (pos length : Nat)
    (h1 : outPos + length ≤ output.length) (h2 : pos + length ≤ data.length) :
    (writeLiteral output outPos data pos length).length = output.length := by
  simp only [writeLiteral, List.length_append, List.length_take, List.length_drop]
  omega

lemma performCopy_ok_length (output : List Nat) (outPos offset length ulen : Nat) (e : Err)
    (output2 : List Nat) (outPos2 : Nat)
    (h : performCopy output outPos offset length ulen e = .ok (output2, outPos2)) :
    output2.length = output.length := by
  unfold performCopy at h
  split at h
  · simp at h
  · split at h
    · simp at h
    · split at h
      · simp at h
      · simp only [Except.ok.injEq, Prod.mk.injEq] at h
        rw [← h.1]
        exact copyRange_length output outPos offset length

lemma decompressLoop_ok_length (data : List Nat) (ulen : Nat) : ∀ fuel pos output outPos out,
    output.length = ulen →
    decompressLoop data ulen fuel pos output outPos = .ok out →
    out.length = ulen := by
  intro fuel
  induction fuel with
  | zero =>
    intro pos output outPos out _ h
    simp [decompressLoop] at h
  | succ f ih =>
    intro pos output outPos out hlen h
    simp only [decompressLoop] at h
    split at h
    · split at h
      · split at h
        · simp at h
        · split at h
          · simp at h
          · split at h
            · simp at h
            · refine ih _ _ _ _ ?_ h
              rw [writeLiteral_length]
              · exact hlen
              · omega
              · omega
      · split at h
        · split at h
          · simp at h
          · split at h
            · simp at h
            · next output2 outPos2 heq =>
              refine ih _ _ _ _ ?_ h
              rw [performCopy_ok_length _ _ _ _ _ _ _ _ heq]
              exact hlen
        · split at h
          · split at h
            · simp at h
            · split at h
              · simp at h
              · next output2 outPos2 heq =>
                refine ih _ _ _ _ ?_ h
                rw [performCopy_ok_length _ _ _ _ _ _ _ _ heq]
                exact hlen
          · split at h
            · simp at h
            · split at h
              · simp at h
              · next output2 outPos2 heq =>
                refine ih _ _ _ _ ?_ h
                rw [performCopy_ok_length _ _ _ _ _ _ _ _ heq]
                exact hlen
    · split at h
      · simp at h
      · simp only [Except.ok.injEq] at h
        subst h
        exact hlen

lemma leBytes_eq_sum (data : List Nat) (pos : Nat) : ∀ n,
    leBytes data pos n =
      Finset.sum (Finset.range n) (fun i => data.getD (pos + i) 0 * 256 ^ i) := by
  intro n
  induction n with
  | zero => simp [leBytes]
  | succ n ih =>
    rw [Finset.sum_range_succ, ← ih]
    simp only [leBytes]
    congr 1
    rw [Nat.shiftLeft_eq,
      show (2 : Nat) ^ (n * 8) = 256 ^ n by
        rw [show (256 : Nat) = 2 ^ 8 by norm_num, ← pow_mul, Nat.mul_comm]]

lemma parseLiteralLen_direct (data : List Nat) (pos tag : Nat)
    (h : (tag >>> 2) + 1 ≤ 60) :
    parseLiteralLen data pos tag = .ok ((tag >>> 2) + 1, pos) := by
  simp only [parseLiteralLen]
  rw [if_pos h]

lemma parseLiteralLen_extended (data : List Nat) (pos tag N : Nat)
    (h1 : 1 ≤ N) (heq : (tag >>> 2) + 1 = 60 + N) (hlen : pos + N ≤ data.length) :
    parseLiteralLen data pos tag =
      .ok (1 + Finset.sum (Finset.range N) (fun i => data.getD (pos + i) 0 * 256 ^ i),
        pos + N) := by
  simp only [parseLiteralLen]
  rw [heq, show 60 + N - 60 = N by omega, if_neg (by omega), if_neg (by omega),
    leBytes_eq_sum]

/-- C1: for every input on which `decompress` succeeds, the length of
the returned byte sequence equals the uncompressed length decoded from
the leading varint of that input. -/
theorem decompress_length_eq_varint (data : List Nat) (out : List Nat)
    (hok : decompress data = .ok out) (n p : Nat)
    (hvar : _decode_varint data 0 = .ok (n, p)) :
    out.length = n := by
  unfold decompress at hok
  split at hok
  · next hz =>
    have hdata : data = [] := List.length_eq_zero.mp hz
    subst hdata
    simp [_decode_varint, decodeVarintLoop] at hvar
  · rw [hvar] at hok
    exact decompressLoop_ok_length data n (data.length + 1) p (List.replicate n 0) 0 out
      (by simp) hok

/-- C1 witness: decoding a declared-length-2 literal stream returns two
bytes. -/
theorem decompress_length_eq_varint_witness : ([65, 66] : List Nat).length = 2 :=
  decompress_length_eq_varint [2, 4, 65, 66] [65, 66] rfl 2 1 rfl

/-- C6: for a literal tag, if `(tag >> 2) + 1` is at most 60 it is the
literal byte count and no extra length bytes are read (the cursor is
unchanged); if it equals `60 + N` with `N ∈ {1,2,3,4}`, exactly `N`
extra bytes after the tag are read, the length becomes 1 plus their
little-endian value, and the cursor advances past them.  A tag encoding
exactly 60 reads no extra bytes, while a 61-byte literal reads one
extra byte encoding 60. -/
theorem literal_length_encoding (data : List Nat) (pos tag N : Nat) :
    ((tag >>> 2) + 1 ≤ 60 → parseLiteralLen data pos tag = .ok ((tag >>> 2) + 1, pos)) ∧
    (1 ≤ N → N ≤ 4 → (tag >>> 2) + 1 = 60 + N → pos + N ≤ data.length →
      parseLiteralLen data pos tag =
        .ok (1 + Finset.sum (Finset.range N) (fun i => data.getD (pos + i) 0 * 256 ^ i),
          pos + N)) ∧
    parseLiteralLen [] 0 236 = .ok (60, 0) ∧
    parseLiteralLen [60] 0 240 = .ok (61, 1) := by
  refine ⟨fun h => parseLiteralLen_direct data pos tag h,
    fun h1 _ heq hlen => parseLiteralLen_extended data pos tag N h1 heq hlen, rfl, rfl⟩

/-- C6 witness: a 61-byte literal tag reads one extra byte with value
60 and reconstructs length 61. -/
theorem literal_length_encoding_witness :
    parseLiteralLen [60, 65] 0 240 = .ok (61, 1) := by
  have h := (literal_length_encoding [60, 65] 0 240 1).2.1 (by decide) (by decide)
    (by decide) (by decide)
  exact h.trans (by norm_num [Finset.sum_range_succ])

/-- C7: a copy element whose decoded offset is 0, or exceeds the
current output cursor, fails with the corresponding invalid-offset
error and produces no output; the checks run identically for all three
copy kinds (crafted inputs below exercise the 1-, 2- and 4-byte-offset
kinds, in each case with offset zero and with offset past the output
cursor). -/
theorem copy_invalid_offset_rejected (output : List Nat) (outPos offset length ulen : Nat)
    (e : Err) (h : offset = 0 ∨ outPos < offset) :
    performCopy output outPos offset length ulen e =
      .error (if offset = 0 then Err.invalidZeroOffset else Err.offsetExceedsOutput) ∧
    decompress [4, 1, 0] = .error .invalidZeroOffset ∧
    decompress [4, 1, 1] = .error .offsetExceedsOutput ∧
    decompress [1, 2, 0, 0] = .error .invalidZeroOffset ∧
    decompress [1, 2, 1, 0] = .error .offsetExceedsOutput ∧
    decompress [1, 3, 0, 0, 0, 0] = .error .invalidZeroOffset ∧
    decompress [1, 3, 1, 0, 0, 0] = .error .offsetExceedsOutput := by
  refine ⟨?_, rfl, rfl, rfl, rfl, rfl, rfl⟩
  unfold performCopy
  rcases h with h0 | hgt
  · subst h0
    simp
  · have hne : ¬ offset = 0 := by omega
    rw [if_neg hne, if_pos hgt, if_neg hne]

/-- C7 witness: offset 0 is rejected by the shared copy validation. -/
theorem copy_invalid_offset_rejected_witness :
    performCopy [] 0 0 4 0 Err.outputOverflowCopy1 = .error Err.invalidZeroOffset := by
  have h := (copy_invalid_offset_rejected [] 0 0 4 0 Err.outputOverflowCopy1 (Or.inl rfl)).1
  simpa using h

/-- C8: whenever the decode loop terminates (input exhausted or target
length reached) with the output cursor not exactly equal to the
declared uncompressed length, the result is the SizeMismatch error;
in particular a stream declaring length 10 whose elements produce only
2 bytes fails with it. -/
theorem size_mismatch_on_loop_exit (fuel : Nat) (data : List Nat) (ulen pos : Nat)
    (output : List Nat) (outPos : Nat)
    (hexit : data.length ≤ pos ∨ ulen ≤ outPos) (hne : outPos ≠ ulen) :
    decompressLoop data ulen (fuel + 1) pos output outPos = .error .sizeMismatch ∧
      decompress [10, 4, 65, 66] = .error .sizeMismatch := by
  refine ⟨?_, rfl⟩
  simp only [decompressLoop]
  rw [if_neg (by omega), if_pos hne]

/-- C8 witness: an exhausted input with a still-unmet declared length
of 1. -/
theorem size_mismatch_on_loop_exit_witness :
    decompressLoop [] 1 1 0 [] 0 = .error .sizeMismatch ∧
      decompress [10, 4, 65, 66] = .error .sizeMismatch :=
  size_mismatch_on_loop_exit 0 [] 1 0 [] 0 (Or.inl (by decide)) (by decide)

/-- C9 counterexample: the input `01 00 41 63` carries one trailing
byte after the output is complete, and still decodes successfully; the
trailing byte is never read (changing it to 200, or removing it, gives
the same result). -/
theorem decompress_trailing_bytes_counterexample :
    decompress [1, 0, 65, 99] = .ok [65] ∧ decompress [1, 0, 65, 200] = .ok [65] ∧
      decompress [1, 0, 65] = .ok [65] :=
  ⟨rfl, rfl, rfl⟩

/-- C9 (amended): a successful decode still guarantees the output
cursor reached exactly the declared uncompressed length (the result has
that length), but the input need not be fully consumed: trailing bytes
remaining after the output is complete are ignored and the decode
succeeds anyway. -/
theorem decompress_success_ignores_trailing (data : List Nat) (out : List Nat)
    (hok : decompress data = .ok out) (n p : Nat)
    (hvar : _decode_varint data 0 = .ok (n, p)) :
    out.length = n ∧ decompress [1, 0, 65, 99] = .ok [65] := by
  refine ⟨?_, rfl⟩
  unfold decompress at hok
  split at hok
  · next hz =>
    have hdata : data = [] := List.length_eq_zero.mp hz
    subst hdata
    simp [_decode_varint, decodeVarintLoop] at hvar
  · rw [hvar] at hok
    exact decompressLoop_ok_length data n (data.length + 1) p (List.replicate n 0) 0 out
      (by simp) hok

/-- C9 witness: the trailing-byte input itself, whose successful result
has exactly the declared length 1. -/
theorem decompress_success_ignores_trailing_witness :
    ([65] : List Nat).length = 1 ∧ decompress [1, 0, 65, 99] = .ok [65] :=
  decompress_success_ignores_trailing [1, 0, 65, 99] [65] rfl 1 1 rfl

/-- C10: non-minimal extended literal-length encodings are accepted:
for every tag whose encoded value is `60 + N` with `N ∈ {1,2,3,4}`, the
`N` extra bytes are read and `1` plus their little-endian value is used
as the length even when that length is 60 or less; a length-1 literal
encoded with tag value 61 and one extra byte `0x00` decodes to the same
output as the direct encoding. -/
theorem nonminimal_literal_length_accepted (data : List Nat) (pos N : Nat)
    (h1 : 1 ≤ N) (_h4 : N ≤ 4) (hlen : pos + N ≤ data.length) :
    parseLiteralLen data pos ((59 + N) <<< 2) =
      .ok (1 + Finset.sum (Finset.range N) (fun i => data.getD (pos + i) 0 * 256 ^ i),
        pos + N) ∧
    decompress [1, 240, 0, 65] = .ok [65] ∧
    decompress [1, 0, 65] = .ok [65] := by
  refine ⟨?_, rfl, rfl⟩
  exact parseLiteralLen_extended data pos ((59 + N) <<< 2) N h1 (by omega) hlen

/-- C10 witness: tag value 61 with one extra byte 0 yields literal
length 1. -/
theorem nonminimal_literal_length_accepted_witness :
    parseLiteralLen [0] 0 240 = .ok (1, 1) := by
  have h := (nonminimal_literal_length_accepted [0] 0 1 (by decide) (by decide)
    (by decide)).1
  exact h.trans (by norm_num [Finset.sum_range_succ])
